import Mathlib

/-!
# UndoQuantum (src/ee/common/UndoQuantum.h)

A shallow embedding of `voltdb::UndoQuantum`: the per-transaction container of
undo actions and release interests, with its registration method and its two
finalize methods `undo()` and `release()`.

Pointers are natural numbers, `NULL` is `0`.  The virtual calls made on actions
and interests (`undo()`, `release()`, the destructor run by `delete`, and
`notifyQuantumRelease()`) are recorded, in the order they are made, as a list
of events.  An object whose destructor has run is destroyed: a later call on it
has no defined behaviour, which ends the trace.  The `uint32_t` members wrap
modulo `2^32`.
-/

namespace UndoQuantum

/-- A pointer value. -/
abbrev Ptr := Nat

/-- The null pointer. -/
def NULL : Ptr := 0

/-- Number of values of a `uint32_t`. -/
def UINT32 : Nat := 2 ^ 32

/-- The value of `sizeof(void*)`. -/
def sizeofPtr : Nat := 8

/-- A virtual call made by the quantum on one of the objects registered with it:
`cur->undo()`, `action->release()`, the destructor run by `delete cur`, and
`m_interests[ii]->notifyQuantumRelease()`. -/
inductive Event where
  | undo (action : Ptr)
  | release (action : Ptr)
  | teardown (action : Ptr)
  | notifyQuantumRelease (interest : Ptr)
deriving DecidableEq

/-- Modelled from the spec: the arena allocator `Pool` of common/Pool.hpp, which is
not among the source files.  The spec calls it a bump-style memory pool that
allocates but never frees individual objects and that reports a running total of
the bytes consumed: `base` is the address of the arena, `used` the bytes handed
out so far. -/
structure Pool where
  base : Nat
  used : Nat
deriving DecidableEq

/-- Modelled from the spec: `Pool::allocate(sz)` hands out the next `sz` bytes of the
arena and returns their address. -/
def Pool.allocate (p : Pool) (sz : Nat) : Nat × Pool :=
  (p.base + p.used, { p with used := p.used + sz })

/-- Modelled from the spec: `Pool::getAllocatedMemory()`, the running total of arena
bytes consumed. -/
def Pool.getAllocatedMemory (p : Pool) : Int :=
  (p.used : Int)

/-- The members of `class UndoQuantum`.  `m_interests` is `none` for `nullptr` and
otherwise holds the slots of the array it points to; `m_dataPool` is the pointer
member and `pool` is the state of the `Pool` object it points to. -/
structure State where
  m_undoToken : Int
  m_undoActions : List Ptr
  m_numInterests : Nat
  m_interestsCapacity : Nat
  m_interests : Option (List Ptr)
  m_forLowestSite : Bool
  m_dataPool : Ptr
  pool : Pool
deriving DecidableEq

/-- The constructor `UndoQuantum(undoToken, dataPool, forLowestSite)`, with the
default member initialisers; `pool` is the state of the object `dataPool` points to. -/
def mk (undoToken : Int) (dataPool : Ptr) (forLowestSite : Bool) (pool : Pool) : State :=
  { m_undoToken := undoToken
    m_undoActions := []
    m_numInterests := 0
    m_interestsCapacity := 0
    m_interests := none
    m_forLowestSite := forLowestSite
    m_dataPool := dataPool
    pool := pool }

/-- Slots of a freshly allocated interest array.  Arena memory is not initialised;
a slot that has not been written yet is shown as `NULL`. -/
def freshSlots (n : Nat) : List Ptr :=
  List.replicate n NULL

/-- The call `::memcpy(newStorage, m_interests, sizeof(void*) * n)` on arrays of
pointers: the first `n` slots of `dst` are replaced by the first `n` slots of `src`. -/
def memcpySlots (dst src : List Ptr) (n : Nat) : List Ptr :=
  src.take n ++ dst.drop n

/-- The duplicate scan
`for (int ii = 0; ii < m_numInterests; ii++) if (m_interests[ii] == interest) { isDup = true; break; }`.
The counter `int ii` reaches every index below a count of at most `INT_MAX`. -/
def isDup (slots : List Ptr) (numInterests : Nat) (interest : Ptr) : Bool :=
  (List.range numInterests).any (fun ii => slots.getD ii NULL == interest)

/-- The method `registerUndoAction(undoAction, interest)`, with assertions enabled.
A failed `assert(undoAction)` aborts the process: the result is then
`Except.error`, carrying the state of the quantum at the abort. -/
def registerUndoAction (q : State) (undoAction : Ptr) (interest : Ptr) :
    Except State State :=
  if undoAction = NULL then
    Except.error q
  else
    let q1 := { q with m_undoActions := q.m_undoActions ++ [undoAction] }
    if interest = NULL then
      Except.ok q1
    else
      -- if (m_interests == NULL) { allocate 16 slots; m_interestsCapacity = 16; }
      let q2 : State × List Ptr :=
        match q1.m_interests with
        | none =>
          ({ q1 with
              m_interests := some (freshSlots 16)
              m_interestsCapacity := 16
              pool := (q1.pool.allocate (sizeofPtr * 16)).2 }, freshSlots 16)
        | some slots => (q1, slots)
      if isDup q2.2 q2.1.m_numInterests interest then
        Except.ok q2.1
      else
        -- if (m_numInterests == m_interestsCapacity) { grow to twice the capacity }
        let q3 : State × List Ptr :=
          if q2.1.m_numInterests = q2.1.m_interestsCapacity then
            let newStorage :=
              memcpySlots (freshSlots (q2.1.m_interestsCapacity * 2)) q2.2
                q2.1.m_interestsCapacity
            ({ q2.1 with
                m_interests := some newStorage
                m_interestsCapacity := (q2.1.m_interestsCapacity * 2) % UINT32
                pool := (q2.1.pool.allocate
                  (sizeofPtr * q2.1.m_interestsCapacity * 2)).2 }, newStorage)
          else q2
        -- m_interests[m_numInterests++] = interest;
        Except.ok { q3.1 with
          m_interests := some (q3.2.set q3.1.m_numInterests interest)
          m_numInterests := (q3.1.m_numInterests + 1) % UINT32 }

/-- The call `std::for_each(first, last, f)`: `f` is run on each element in turn,
each run changing the state `s` left by the one before. -/
def for_each {σ : Type} (xs : List Ptr) (f : Ptr → σ → σ) (s : σ) : σ :=
  xs.foldl (fun t x => f x t) s

/-- The progress of a walk over the action vector: the events made so far, the
actions whose destructor has run, and whether the walk still has defined
behaviour. -/
structure Walk where
  trace : List Event
  destroyed : List Ptr
  defined : Bool
deriving DecidableEq

/-- The body of a walk, `cur->undo(); delete cur;` in `undo()` and
`action->release(); delete action;` in `release()`: the virtual call, then the
destructor.  A visit of an action whose destructor has already run, as happens
for a pointer that is in the vector twice, is a call on a destroyed object and
has no defined behaviour: the walk stops there and makes no further event. -/
def visit (call : Ptr → Event) (cur : Ptr) (w : Walk) : Walk :=
  if w.defined then
    if cur ∈ w.destroyed then
      { w with defined := false }
    else
      { trace := w.trace ++ [call cur, Event.teardown cur]
        destroyed := cur :: w.destroyed
        defined := true }
  else w

/-- The method `undo()`: the events it makes, and the pool pointer it returns, or
`none` when the walk ran into a visit without defined behaviour.  The range
`rbegin() .. rend()` is the action vector read backwards.  The method ends with
`delete this`, so no quantum is returned. -/
def undo (q : State) : List Event × Option Ptr :=
  let w := for_each q.m_undoActions.reverse (visit Event.undo)
    { trace := [], destroyed := [], defined := true }
  if w.defined then (w.trace, some q.m_dataPool) else (w.trace, none)

/-- The method `release()`: the events it makes, and the pool pointer it returns,
or `none` when the walk ran into a visit without defined behaviour, in which case
the notification loop is not reached.  The method ends with
`m_interests = nullptr` and `delete this`, so no quantum is returned. -/
def release (q : State) : List Event × Option Ptr :=
  let w := for_each q.m_undoActions (visit Event.release)
    { trace := [], destroyed := [], defined := true }
  if w.defined then
    let trace :=
      match q.m_interests with
      | some slots =>
        (List.range q.m_numInterests).foldl
          (fun t ii => t ++ [Event.notifyQuantumRelease (slots.getD ii NULL)]) w.trace
      | none => w.trace
    (trace, some q.m_dataPool)
  else (w.trace, none)

/-- Byte-addressed memory. -/
abbrev Memory := Nat → Nat

/-- The call `::memcpy(dst, src, n)`: the `n` bytes at `dst` become the `n` bytes
that were at `src`. -/
def memcpy (mem : Memory) (dst src n : Nat) : Memory :=
  fun a => if dst ≤ a ∧ a < dst + n then mem (src + (a - dst)) else mem a

/-- The method `allocatePooledCopy(original, sz)`: the pointer it returns, the
quantum afterwards and the memory afterwards. -/
def allocatePooledCopy (q : State) (mem : Memory) (original : Nat) (sz : Nat) :
    Nat × State × Memory :=
  let r := q.pool.allocate sz
  (r.1, { q with pool := r.2 }, memcpy mem r.1 original sz)

/-- The method `getUndoToken()`. -/
def getUndoToken (q : State) : Int :=
  q.m_undoToken

/-- The method `getAllocatedMemory()`. -/
def getAllocatedMemory (q : State) : Int :=
  q.pool.getAllocatedMemory

/-- The method `allocateAction(sz)`: the address returned and the quantum afterwards. -/
def allocateAction (q : State) (sz : Nat) : Nat × State :=
  ((q.pool.allocate sz).1, { q with pool := (q.pool.allocate sz).2 })

/-- A run of `registerUndoAction` calls, one per (action, interest) pair, in list
order; an interest of `NULL` is a call without interest.  The run stops at the
first call that aborts. -/
def registerAll (q : State) : List (Ptr × Ptr) → Except State State
  | [] => Except.ok q
  | r :: rest =>
    match registerUndoAction q r.1 r.2 with
    | Except.ok q1 => registerAll q1 rest
    | Except.error s => Except.error s

/-- The actions of a run of registrations, in registration order. -/
def actionsOf (regs : List (Ptr × Ptr)) : List Ptr :=
  regs.map Prod.fst

/-- The non-null interest arguments of a run of registrations, in registration order. -/
def interestsOf (regs : List (Ptr × Ptr)) : List Ptr :=
  (regs.map Prod.snd).filter (fun i => i ≠ NULL)

/-- A list with every later repeat of an element removed: each element is kept at
its first occurrence only. -/
def firstOccurrences : List Ptr → List Ptr
  | [] => []
  | x :: xs => x :: (firstOccurrences xs).filter (fun y => y ≠ x)

/-- The interests a quantum has stored: the first `m_numInterests` slots of the
interest array, or nothing while the array is unallocated. -/
def storedInterests (q : State) : List Ptr :=
  match q.m_interests with
  | some slots => (List.range q.m_numInterests).map (fun ii => slots.getD ii NULL)
  | none => []

/-- An event made on an action: its `undo()`, its `release()` or its teardown. -/
def Event.isAction : Event → Bool
  | Event.notifyQuantumRelease _ => false
  | _ => true

/-- The largest value of the scan counter `int ii`. -/
def INT_MAX : Nat := 2 ^ 31 - 1

/-- The interests stored after a run of registrations whose non-null interest
arguments are `is`, starting with `S` stored: an interest that is already stored
is skipped, any other is appended. -/
def storeAll (S : List Ptr) : List Ptr → List Ptr
  | [] => S
  | i :: is => if i ∈ S then storeAll S is else storeAll (S ++ [i]) is

/-- The quantum stores exactly the interests `S`: the count is the length of `S`,
the array is unallocated when `S` is empty, and otherwise it has
`m_interestsCapacity` slots, of which the first `m_numInterests` hold `S`. -/
def Stores (q : State) (S : List Ptr) : Prop :=
  q.m_numInterests = S.length ∧
  match q.m_interests with
  | none => S = []
  | some slots =>
    slots.length = q.m_interestsCapacity ∧ S.length ≤ q.m_interestsCapacity
      ∧ 0 < S.length ∧ slots.take S.length = S

/-- A call made on a quantum through its interface. -/
inductive Call where
  | registerUndoAction (undoAction interest : Ptr)
  | undo
  | release
deriving DecidableEq

/-- A quantum object in memory: its members, and whether its lifetime has ended,
that is, whether `delete this` has run on it.  The class has no member that
records this. -/
structure Object where
  members : State
  ended : Bool
deriving DecidableEq

/-- How a call ends: stopped by a failed assertion, with the state of the quantum
at the abort; or returned, with the events it made; or, after the events given,
without defined behaviour. -/
inductive Outcome where
  | aborted (q : State)
  | returned (events : List Event)
  | undefined (events : List Event)
deriving DecidableEq

/-- The outcome of a finalize method from its events and its result. -/
def Outcome.ofFinalize (r : List Event × Option Ptr) : Outcome :=
  match r.2 with
  | some _ => Outcome.returned r.1
  | none => Outcome.undefined r.1

/-- One call made on a quantum object, and the object afterwards.  A member
function called on an object whose lifetime has ended has no defined behaviour:
none of the three methods tests for it.  `undo()` and `release()` end the
lifetime of the object with `delete this`. -/
def perform (o : Object) (c : Call) : Outcome × Object :=
  if o.ended then
    (Outcome.undefined [], o)
  else
    match c with
    | Call.registerUndoAction undoAction interest =>
      match registerUndoAction o.members undoAction interest with
      | Except.error s => (Outcome.aborted s, o)
      | Except.ok q1 => (Outcome.returned [], { o with members := q1 })
    | Call.undo => (Outcome.ofFinalize (undo o.members), { o with ended := true })
    | Call.release => (Outcome.ofFinalize (release o.members), { o with ended := true })

/-- Whether a call was stopped by a failed assertion. -/
def Outcome.isAborted : Outcome → Bool
  | Outcome.aborted _ => true
  | _ => false

/-- The outcomes of a run of calls made on one quantum object, in order; the run
ends with the first call that a failed assertion stops. -/
def performAll (o : Object) : List Call → List Outcome
  | [] => []
  | c :: cs =>
    if (perform o c).1.isAborted then [(perform o c).1]
    else (perform o c).1 :: performAll (perform o c).2 cs

/-- A quantum on which action 1 has been registered once, with interest 9. -/
def registeredOnce : State :=
  { m_undoToken := 5
    m_undoActions := [1]
    m_numInterests := 1
    m_interestsCapacity := 16
    m_interests := some ((freshSlots 16).set 0 9)
    m_forLowestSite := false
    m_dataPool := 1000
    pool := { base := 4096, used := 128 } }

/-- The capacity of the interest array fits `k` stored interests: the array is
unallocated with capacity 0, or its capacity is 16 doubled `j` times, where the
last doubling, if any, was needed: half the capacity is less than `k`. -/
def CapacityFits (q : State) (k : Nat) : Prop :=
  match q.m_interests with
  | none => q.m_interestsCapacity = 0
  | some _ => ∃ j, q.m_interestsCapacity = 16 * 2 ^ j ∧ (j = 0 ∨ 16 * 2 ^ j < 2 * k)

/-- A quantum whose interest array is full: sixteen interests, 101 to 116, in
sixteen slots, registered with the actions 1 to 16. -/
def fullQuantum : State :=
  { m_undoToken := 5
    m_undoActions := (List.range 16).map (fun k => k + 1)
    m_numInterests := 16
    m_interestsCapacity := 16
    m_interests := some ((List.range 16).map (fun k => k + 101))
    m_forLowestSite := false
    m_dataPool := 1000
    pool := { base := 4096, used := 128 } }

end UndoQuantum

/-!
# LimitExecutor (src/ee/executors/limitexecutor.cpp)

A shallow embedding of `LimitExecutor::p_execute`.  The input table is the list
of tuples its iterator hands out, in order.  The values that
`getLimitAndOffsetByReference` stores in `limit` and `offset` are parameters.
The `int` counters wrap modulo `2^32`.
-/

namespace LimitExecutor

/-- The values of an `int`. -/
def IsInt (x : Int) : Prop :=
  -(2 ^ 31) ≤ x ∧ x < 2 ^ 31

/-- The value of an `int` expression after wrap-around. -/
def wrapInt (x : Int) : Int :=
  (x + 2 ^ 31) % 2 ^ 32 - 2 ^ 31

/-- The variables of the loop of `p_execute`: the two counters, the tuples passed
to `insertTempTuple` so far, in order, and the number of tuples that
`iterator.next` has handed out so far. -/
structure LoopState (Tuple : Type) where
  tuple_ctr : Int
  tuples_skipped : Int
  output : List Tuple
  reads : Nat

/-- The loop
`while ((limit == -1 || tuple_ctr < limit) && iterator.next(tuple)) { ... }`,
run on the tuples the iterator has left.  The iterator is asked only when the
left operand of `&&` holds, and the loop ends when it has no tuple left. -/
def loop {Tuple : Type} (limit offset : Int) :
    List Tuple → LoopState Tuple → LoopState Tuple
  | [], s => s
  | tuple :: rest, s =>
    if limit = -1 ∨ s.tuple_ctr < limit then
      if s.tuples_skipped < offset then
        -- tuples_skipped++; continue;
        loop limit offset rest
          { s with
            tuples_skipped := wrapInt (s.tuples_skipped + 1)
            reads := s.reads + 1 }
      else
        -- tuple_ctr++; output_table->insertTempTuple(tuple);
        loop limit offset rest
          { s with
            tuple_ctr := wrapInt (s.tuple_ctr + 1)
            output := s.output ++ [tuple]
            reads := s.reads + 1 }
    else s

/-- The method `p_execute()`: its return value, the tuples it inserts into the
output table, in order, and the number of input tuples it reads. -/
def p_execute {Tuple : Type} (input : List Tuple) (limit offset : Int) :
    Bool × List Tuple × Nat :=
  let s := loop limit offset input
    { tuple_ctr := 0, tuples_skipped := 0, output := [], reads := 0 }
  (true, s.output, s.reads)

/-- The tuples that remain after skipping the first `max(offset, 0)`, cut to the
first `limit` of them unless `limit` is -1. -/
def limited {Tuple : Type} (input : List Tuple) (limit offset : Int) : List Tuple :=
  if limit = -1 then input.drop offset.toNat
  else (input.drop offset.toNat).take limit.toNat

end LimitExecutor

namespace UndoQuantum

/-! ## Theorems -/

/-- The notification loop of `release()` notifies the stored interests in order. -/
theorem notify_loop (slots : List Ptr) (n : Nat) (trace : List Event) :
    (List.range n).foldl
        (fun t ii => t ++ [Event.notifyQuantumRelease (slots.getD ii NULL)]) trace
      = trace ++ ((List.range n).map (fun ii => slots.getD ii NULL)).map
          Event.notifyQuantumRelease := by
  induction n with
  | zero => simp
  | succ n ih =>
    rw [List.range_succ, List.foldl_append, ih]
    simp only [List.foldl_cons, List.foldl_nil, List.map_append, List.map_cons,
      List.map_nil, List.append_assoc]

/-- A walk over pairwise distinct actions, none of them destroyed before, visits
every one of them in turn and keeps defined behaviour. -/
theorem walk_distinct (call : Ptr → Event) (xs : List Ptr) (w : Walk)
    (hd : w.defined = true) (hn : xs.Nodup) (hf : ∀ x ∈ xs, x ∉ w.destroyed) :
    (for_each xs (visit call) w).trace
        = w.trace ++ xs.flatMap (fun a => [call a, Event.teardown a])
      ∧ (for_each xs (visit call) w).defined = true := by
  induction xs generalizing w with
  | nil => simp [for_each, hd]
  | cons x xs ih =>
    have hx : x ∉ w.destroyed := hf x (List.mem_cons_self _ _)
    rw [List.nodup_cons] at hn
    have hv : visit call x w
        = { trace := w.trace ++ [call x, Event.teardown x]
            destroyed := x :: w.destroyed
            defined := true } := by
      simp [visit, hd, hx]
    have hstep : for_each (x :: xs) (visit call) w
        = for_each xs (visit call) (visit call x w) := rfl
    have hrest := ih (visit call x w) (by rw [hv]) hn.2 (by
      intro y hy
      rw [hv]
      intro hmem
      rcases List.mem_cons.mp hmem with h1 | h1
      · exact hn.1 (h1 ▸ hy)
      · exact hf y (List.mem_cons_of_mem _ hy) h1)
    rw [hstep]
    refine ⟨?_, hrest.2⟩
    rw [hrest.1, hv]
    simp [List.flatMap_cons, List.append_assoc]

/-- Every event of a walk was in the trace before or is the call on an action or
its teardown. -/
theorem walk_events (call : Ptr → Event) (xs : List Ptr) (w : Walk) (e : Event)
    (he : e ∈ (for_each xs (visit call) w).trace) :
    e ∈ w.trace ∨ ∃ a, e = call a ∨ e = Event.teardown a := by
  induction xs generalizing w with
  | nil => exact Or.inl he
  | cons x xs ih =>
    have hstep : for_each (x :: xs) (visit call) w
        = for_each xs (visit call) (visit call x w) := rfl
    rw [hstep] at he
    rcases ih (visit call x w) he with h1 | h1
    · unfold visit at h1
      split at h1
      · split at h1
        · exact Or.inl h1
        · rcases List.mem_append.mp h1 with h2 | h2
          · exact Or.inl h2
          · right
            simp at h2
            rcases h2 with rfl | rfl
            · exact ⟨x, Or.inl rfl⟩
            · exact ⟨x, Or.inr rfl⟩
      · exact Or.inl h1
    · exact Or.inr h1

/-- The method `undo()` on pairwise distinct actions: its trace in closed form,
and its result. -/
theorem undo_trace (q : State) (hn : q.m_undoActions.Nodup) :
    (undo q).1 = q.m_undoActions.reverse.flatMap
        (fun a => [Event.undo a, Event.teardown a])
      ∧ (undo q).2 = some q.m_dataPool := by
  have hw := walk_distinct Event.undo q.m_undoActions.reverse
    { trace := [], destroyed := [], defined := true } rfl
    (List.nodup_reverse.mpr hn) (by simp)
  have hu : undo q = ((for_each q.m_undoActions.reverse (visit Event.undo)
      { trace := [], destroyed := [], defined := true }).trace, some q.m_dataPool) := by
    unfold undo
    simp only [hw.2, if_true]
  rw [hu]
  exact ⟨by rw [hw.1]; rfl, rfl⟩

/-- The method `release()` on pairwise distinct actions: its trace in closed form,
the actions and then the stored interests, and its result. -/
theorem release_trace (q : State) (hn : q.m_undoActions.Nodup) :
    (release q).1 = q.m_undoActions.flatMap
          (fun a => [Event.release a, Event.teardown a])
        ++ (storedInterests q).map Event.notifyQuantumRelease
      ∧ (release q).2 = some q.m_dataPool := by
  have hw := walk_distinct Event.release q.m_undoActions
    { trace := [], destroyed := [], defined := true } rfl hn (by simp)
  cases h : q.m_interests with
  | none =>
    have hr : release q = ((for_each q.m_undoActions (visit Event.release)
        { trace := [], destroyed := [], defined := true }).trace, some q.m_dataPool) := by
      unfold release
      simp only [hw.2, if_true, h]
    rw [hr]
    refine ⟨?_, rfl⟩
    simp [hw.1, storedInterests, h]
  | some slots =>
    have hr : release q = ((List.range q.m_numInterests).foldl
        (fun t ii => t ++ [Event.notifyQuantumRelease (slots.getD ii NULL)])
        (for_each q.m_undoActions (visit Event.release)
          { trace := [], destroyed := [], defined := true }).trace,
        some q.m_dataPool) := by
      unfold release
      simp only [hw.2, if_true, h]
    rw [hr]
    refine ⟨?_, rfl⟩
    dsimp only
    rw [notify_loop, hw.1]
    simp only [storedInterests, h, List.nil_append]

/-- A registration with a non-null action succeeds and appends the action. -/
theorem register_actions (q : State) (a i : Ptr) (ha : a ≠ NULL) :
    ∃ q1, registerUndoAction q a i = Except.ok q1
      ∧ q1.m_undoActions = q.m_undoActions ++ [a] := by
  unfold registerUndoAction
  rw [if_neg ha]
  by_cases hi : i = NULL
  · simp [hi]
  · simp only [if_neg hi]
    split
    · exact ⟨_, rfl, by cases q.m_interests <;> rfl⟩
    · refine ⟨_, rfl, ?_⟩
      cases q.m_interests <;> (dsimp only; split <;> rfl)

/-- A run of registrations with non-null actions succeeds and appends the actions
in registration order. -/
theorem registerAll_actions (regs : List (Ptr × Ptr)) (q : State)
    (h : ∀ r ∈ regs, r.1 ≠ NULL) :
    ∃ q1, registerAll q regs = Except.ok q1
      ∧ q1.m_undoActions = q.m_undoActions ++ actionsOf regs := by
  induction regs generalizing q with
  | nil => exact ⟨q, rfl, by simp [actionsOf]⟩
  | cons r rest ih =>
    obtain ⟨q1, h1, h2⟩ := register_actions q r.1 r.2 (h r (List.mem_cons_self _ _))
    obtain ⟨q2, h3, h4⟩ := ih q1 (fun x hx => h x (List.mem_cons_of_mem _ hx))
    refine ⟨q2, ?_, ?_⟩
    · simp [registerAll, h1, h3]
    · rw [h4, h2]; simp [actionsOf]

/-- A registration with a non-null action returns, and leaves the token, the
site flag and the pool pointer as they were. -/
theorem register_frame (q : State) (a i : Ptr) (ha : a ≠ NULL) :
    ∃ q1, registerUndoAction q a i = Except.ok q1
      ∧ q1.m_undoToken = q.m_undoToken
      ∧ q1.m_forLowestSite = q.m_forLowestSite
      ∧ q1.m_dataPool = q.m_dataPool := by
  unfold registerUndoAction
  rw [if_neg ha]
  by_cases hi : i = NULL
  · simp [hi]
  · simp only [if_neg hi]
    split
    · exact ⟨_, rfl, by cases q.m_interests <;> exact ⟨rfl, rfl, rfl⟩⟩
    · refine ⟨_, rfl, ?_⟩
      cases q.m_interests <;> (dsimp only; split <;> exact ⟨rfl, rfl, rfl⟩)

/-- A run of registrations with non-null actions returns, and leaves the token,
the site flag and the pool pointer as they were. -/
theorem registerAll_frame (regs : List (Ptr × Ptr)) (q : State)
    (h : ∀ r ∈ regs, r.1 ≠ NULL) :
    ∃ q1, registerAll q regs = Except.ok q1
      ∧ q1.m_undoToken = q.m_undoToken
      ∧ q1.m_forLowestSite = q.m_forLowestSite
      ∧ q1.m_dataPool = q.m_dataPool := by
  induction regs generalizing q with
  | nil => exact ⟨q, rfl, rfl, rfl, rfl⟩
  | cons r rest ih =>
    obtain ⟨q1, h1, ht, hf, hp⟩ := register_frame q r.1 r.2 (h r (List.mem_cons_self _ _))
    obtain ⟨q2, h2, ht2, hf2, hp2⟩ := ih q1 (fun x hx => h x (List.mem_cons_of_mem _ hx))
    refine ⟨q2, by simp [registerAll, h1, h2], ?_, ?_, ?_⟩
    · rw [ht2, ht]
    · rw [hf2, hf]
    · rw [hp2, hp]

/-- Writing slot `n` of an array and reading back the first `n + 1` slots. -/
theorem take_set_succ (l : List Ptr) (n : Nat) (x : Ptr) (h : n < l.length) :
    (l.set n x).take (n + 1) = l.take n ++ [x] := by
  induction l generalizing n with
  | nil => simp at h
  | cons y ys ih =>
    cases n with
    | zero => simp
    | succ m =>
      have hm : m < ys.length := by simpa using h
      simp [ih m hm]

/-- Reading the first `n` slots one index at a time. -/
theorem map_getD_range (l : List Ptr) (n : Nat) (h : n ≤ l.length) :
    (List.range n).map (fun ii => l.getD ii NULL) = l.take n := by
  apply List.ext_getElem
  · simp [h]
  · intro k h1 h2
    have hk : k < n := by simpa using h1
    have hkl : k < l.length := Nat.lt_of_lt_of_le hk h
    rw [List.getElem_map, List.getElem_range, List.getElem_take, List.getD_eq_getElem l NULL hkl]

/-- The duplicate scan finds an interest exactly when it is among the first
`n` slots. -/
theorem isDup_iff (slots : List Ptr) (n : Nat) (i : Ptr) (h : n ≤ slots.length) :
    isDup slots n i = true ↔ i ∈ slots.take n := by
  rw [← map_getD_range slots n h]
  unfold isDup
  rw [List.any_eq_true, List.mem_map]
  constructor
  · rintro ⟨k, hk, he⟩
    exact ⟨k, hk, by simpa using he⟩
  · rintro ⟨k, hk, he⟩
    exact ⟨k, hk, by simpa using he⟩

/-- A quantum that stores `S` reports `S` as its stored interests. -/
theorem storedInterests_of_stores (q : State) (S : List Ptr) (h : Stores q S) :
    storedInterests q = S := by
  unfold Stores at h
  unfold storedInterests
  cases hq : q.m_interests with
  | none =>
    rw [hq] at h
    exact h.2.symm
  | some slots =>
    rw [hq] at h
    obtain ⟨hn, hlen, hle, _, htake⟩ := h
    dsimp only
    rw [map_getD_range slots _ (by omega), hn, htake]

/-- A fresh quantum stores no interest. -/
theorem stores_mk (t : Int) (p : Ptr) (f : Bool) (pool : Pool) :
    Stores (mk t p f pool) [] := by
  simp [Stores, mk]

/-- A registration without interest leaves the stored interests as they are. -/
theorem register_null_stores (q : State) (S : List Ptr) (a : Ptr)
    (hS : Stores q S) (ha : a ≠ NULL) :
    ∃ q1, registerUndoAction q a NULL = Except.ok q1 ∧ Stores q1 S := by
  unfold registerUndoAction
  rw [if_neg ha]
  simp only [if_true]
  exact ⟨_, rfl, hS⟩

/-- A registration with an interest that is already stored leaves the stored
interests as they are. -/
theorem register_dup_stores (q : State) (S : List Ptr) (a i : Ptr)
    (hS : Stores q S) (ha : a ≠ NULL) (hi : i ≠ NULL) (hmem : i ∈ S) :
    ∃ q1, registerUndoAction q a i = Except.ok q1 ∧ Stores q1 S := by
  unfold Stores at hS
  cases hq : q.m_interests with
  | none =>
    rw [hq] at hS
    rw [hS.2] at hmem
    simp at hmem
  | some slots =>
    rw [hq] at hS
    obtain ⟨hn, hlen, hle, hpos, htake⟩ := hS
    have hdup : isDup slots q.m_numInterests i = true := by
      rw [isDup_iff slots _ i (by omega), hn, htake]
      exact hmem
    refine ⟨{ q with m_undoActions := q.m_undoActions ++ [a] }, ?_, ?_⟩
    · unfold registerUndoAction
      rw [if_neg ha, if_neg hi]
      simp only [hq, hdup, if_true]
    · unfold Stores
      simp only [hq]
      exact ⟨hn, hlen, hle, hpos, htake⟩

/-- The result of a registration that allocates the interest array. -/
theorem register_alloc (q : State) (a i : Ptr) (ha : a ≠ NULL) (hi : i ≠ NULL)
    (hq : q.m_interests = none) (hn : q.m_numInterests = 0) :
    registerUndoAction q a i = Except.ok
      { q with
        m_undoActions := q.m_undoActions ++ [a]
        m_interests := some ((freshSlots 16).set 0 i)
        m_interestsCapacity := 16
        m_numInterests := 1
        pool := (q.pool.allocate (sizeofPtr * 16)).2 } := by
  simp [registerUndoAction, ha, hi, hq, hn, isDup, UINT32]

/-- The result of a registration that grows the interest array. -/
theorem register_grow (q : State) (slots : List Ptr) (a i : Ptr) (ha : a ≠ NULL)
    (hi : i ≠ NULL) (hq : q.m_interests = some slots)
    (hdup : isDup slots q.m_numInterests i = false)
    (hfull : q.m_numInterests = q.m_interestsCapacity) :
    registerUndoAction q a i = Except.ok
      { q with
        m_undoActions := q.m_undoActions ++ [a]
        m_interests := some ((memcpySlots (freshSlots (q.m_interestsCapacity * 2)) slots
          q.m_interestsCapacity).set q.m_numInterests i)
        m_interestsCapacity := (q.m_interestsCapacity * 2) % UINT32
        m_numInterests := (q.m_numInterests + 1) % UINT32
        pool := (q.pool.allocate (sizeofPtr * q.m_interestsCapacity * 2)).2 } := by
  unfold registerUndoAction
  rw [if_neg ha, if_neg hi]
  simp only [hq, hdup, Bool.false_eq_true, if_false, if_pos hfull]

/-- The result of a registration that writes into a free slot. -/
theorem register_put (q : State) (slots : List Ptr) (a i : Ptr) (ha : a ≠ NULL)
    (hi : i ≠ NULL) (hq : q.m_interests = some slots)
    (hdup : isDup slots q.m_numInterests i = false)
    (hfull : q.m_numInterests ≠ q.m_interestsCapacity) :
    registerUndoAction q a i = Except.ok
      { q with
        m_undoActions := q.m_undoActions ++ [a]
        m_interests := some (slots.set q.m_numInterests i)
        m_numInterests := (q.m_numInterests + 1) % UINT32 } := by
  unfold registerUndoAction
  rw [if_neg ha, if_neg hi]
  simp only [hq, hdup, Bool.false_eq_true, if_false, if_neg hfull]

/-- A registration with an interest that is not stored yet appends it to the
stored interests, provided the count stays within the range of the scan counter. -/
theorem register_new_stores (q : State) (S : List Ptr) (a i : Ptr)
    (hS : Stores q S) (ha : a ≠ NULL) (hi : i ≠ NULL) (hmem : i ∉ S)
    (hb : S.length < INT_MAX) :
    ∃ q1, registerUndoAction q a i = Except.ok q1 ∧ Stores q1 (S ++ [i]) := by
  have hb31 : S.length < 2 ^ 31 - 1 := hb
  have h32 : UINT32 = 2 ^ 32 := rfl
  unfold Stores at hS
  cases hq : q.m_interests with
  | none =>
    rw [hq] at hS
    obtain ⟨hn, hnil⟩ := hS
    subst hnil
    have hn0 : q.m_numInterests = 0 := by simpa using hn
    refine ⟨_, register_alloc q a i ha hi hq hn0, ?_⟩
    unfold Stores
    simp [freshSlots]
  | some slots =>
    rw [hq] at hS
    obtain ⟨hn, hlen, hle, hpos, htake⟩ := hS
    have hdup : isDup slots q.m_numInterests i = false := by
      rw [Bool.eq_false_iff, Ne, isDup_iff slots _ i (by omega), hn, htake]
      exact hmem
    have hlenS : (S ++ [i]).length = q.m_numInterests + 1 := by simp; omega
    have hmod : (q.m_numInterests + 1) % UINT32 = q.m_numInterests + 1 := by
      apply Nat.mod_eq_of_lt; omega
    by_cases hfull : q.m_numInterests = q.m_interestsCapacity
    · refine ⟨_, register_grow q slots a i ha hi hq hdup hfull, ?_⟩
      unfold Stores
      have h2 : q.m_interestsCapacity * 2 % UINT32 = q.m_interestsCapacity * 2 := by
        apply Nat.mod_eq_of_lt; omega
      have hm : memcpySlots (freshSlots (q.m_interestsCapacity * 2)) slots
          q.m_interestsCapacity = slots ++ freshSlots q.m_interestsCapacity := by
        unfold memcpySlots freshSlots
        rw [← hlen, List.take_length, List.drop_replicate]
        congr 2
        omega
      have hml : (slots ++ freshSlots q.m_interestsCapacity).length
          = q.m_interestsCapacity * 2 := by
        simp [freshSlots]; omega
      simp only [hm, h2, hmod, hlenS]
      refine ⟨trivial, ?_, ?_, ?_, ?_⟩
      · rw [List.length_set, hml]
      · omega
      · omega
      · rw [take_set_succ _ _ _ (by omega), hfull, ← hlen, List.take_left]
        rw [← htake]
        congr 1
        rw [List.take_of_length_le (by omega)]
    · refine ⟨_, register_put q slots a i ha hi hq hdup hfull, ?_⟩
      unfold Stores
      simp only [hmod, hlenS]
      refine ⟨trivial, ?_, ?_, ?_, ?_⟩
      · rw [List.length_set, hlen]
      · omega
      · omega
      · rw [take_set_succ _ _ _ (by omega), hn, htake]

/-- The interests already stored stay at the front of the stored interests. -/
theorem storeAll_length (is : List Ptr) (S : List Ptr) :
    S.length ≤ (storeAll S is).length := by
  induction is generalizing S with
  | nil => simp [storeAll]
  | cons i is ih =>
    unfold storeAll
    split
    · exact ih S
    · have := ih (S ++ [i])
      simp at this
      omega

/-- The stored interests are the ones stored before, followed by the first
occurrences of the new ones. -/
theorem storeAll_eq (is : List Ptr) (S : List Ptr) :
    storeAll S is = S ++ (firstOccurrences is).filter (fun y => y ∉ S) := by
  induction is generalizing S with
  | nil => simp [storeAll, firstOccurrences]
  | cons i is ih =>
    unfold storeAll firstOccurrences
    by_cases hmem : i ∈ S
    · rw [if_pos hmem, ih S, List.filter_cons_of_neg (by simpa using hmem),
        List.filter_filter]
      congr 1
      apply List.filter_congr
      intro y _
      by_cases hy : y ∈ S
      · simp [hy]
      · have : y ≠ i := fun e => hy (e ▸ hmem)
        simp [hy, this]
    · rw [if_neg hmem, ih (S ++ [i]), List.filter_cons_of_pos (by simpa using hmem),
        List.filter_filter, List.append_assoc, List.singleton_append]
      congr 2
      apply List.filter_congr
      intro y _
      simp [not_or]

/-- From a fresh quantum the stored interests are the first occurrences. -/
theorem storeAll_nil (is : List Ptr) : storeAll [] is = firstOccurrences is := by
  rw [storeAll_eq]
  simp

/-- The first occurrences hold no element twice. -/
theorem nodup_firstOccurrences (is : List Ptr) : (firstOccurrences is).Nodup := by
  induction is with
  | nil => simp [firstOccurrences]
  | cons i is ih =>
    unfold firstOccurrences
    rw [List.nodup_cons]
    exact ⟨by simp [List.mem_filter], ih.filter _⟩

/-- Filtering the trace of the action loop of `release()` for action events
keeps all of it. -/
theorem filter_release_actions (as : List Ptr) :
    (as.flatMap (fun a => [Event.release a, Event.teardown a])).filter Event.isAction
      = as.flatMap (fun a => [Event.release a, Event.teardown a]) := by
  rw [List.filter_eq_self]
  intro e he
  rw [List.mem_flatMap] at he
  obtain ⟨a, _, hea⟩ := he
  simp at hea
  rcases hea with rfl | rfl <;> rfl

/-- Filtering notifications for action events keeps nothing. -/
theorem filter_notifications (is : List Ptr) :
    (is.map Event.notifyQuantumRelease).filter Event.isAction = [] := by
  rw [List.filter_eq_nil_iff]
  intro e he
  rw [List.mem_map] at he
  obtain ⟨i, _, rfl⟩ := he
  simp [Event.isAction]

/-- A run of registrations on a fresh quantum, with non-null actions, returns a
quantum whose action vector is the registered actions in registration order. -/
theorem registerAll_mk_actions (t : Int) (p : Ptr) (f : Bool) (pool : Pool)
    (regs : List (Ptr × Ptr)) (h : ∀ r ∈ regs, r.1 ≠ NULL) :
    ∃ q, registerAll (mk t p f pool) regs = Except.ok q
      ∧ q.m_undoActions = actionsOf regs := by
  obtain ⟨q, hq, hA⟩ := registerAll_actions regs (mk t p f pool) h
  exact ⟨q, hq, by simpa [mk] using hA⟩

/-- Claim C1, as the code has it: after any run of registrations of pairwise
distinct actions a1..an on a fresh quantum (with or without interests), the
trace of `undo()` is exactly undo(an), teardown(an), ..., undo(a1), teardown(a1):
reverse registration order, each action torn down right after its own undo call
and before the next action is touched. -/
theorem C1_undo_reverse_order_of_distinct_actions (t : Int) (p : Ptr) (f : Bool)
    (pool : Pool) (regs : List (Ptr × Ptr)) (h : ∀ r ∈ regs, r.1 ≠ NULL)
    (hn : (actionsOf regs).Nodup) :
    ∃ q, registerAll (mk t p f pool) regs = Except.ok q
      ∧ (undo q).1 = (actionsOf regs).reverse.flatMap
          (fun a => [Event.undo a, Event.teardown a]) := by
  obtain ⟨q, hq, hA⟩ := registerAll_mk_actions t p f pool regs h
  refine ⟨q, hq, ?_⟩
  rw [← hA]
  exact (undo_trace q (hA ▸ hn)).1

/-- Witness of C1: three distinct actions, two of them with the same interest. -/
theorem C1_undo_reverse_order_of_distinct_actions_witness :
    (∀ r ∈ [((1 : Ptr), (0 : Ptr)), (2, 9), (3, 9)], r.1 ≠ NULL)
      ∧ (actionsOf [((1 : Ptr), (0 : Ptr)), (2, 9), (3, 9)]).Nodup
      ∧ ∃ q, registerAll (mk 5 1000 false ⟨4096, 0⟩) [(1, 0), (2, 9), (3, 9)] = Except.ok q
        ∧ (undo q).1 = [Event.undo 3, Event.teardown 3, Event.undo 2, Event.teardown 2,
            Event.undo 1, Event.teardown 1] :=
  ⟨by decide, by decide,
    C1_undo_reverse_order_of_distinct_actions 5 1000 false ⟨4096, 0⟩
      [(1, 0), (2, 9), (3, 9)] (by decide) (by decide)⟩

/-- Counterexample to C1 as stated, with duplicates allowed: action 1 is
registered twice, around action 2.  `undo()` undoes and destroys 1 and then 2,
and its third visit is of the destroyed action 1: the trace has four events, not
the six of the claim, and the method does not return. -/
theorem C1_repeated_action_stops_undo :
    ∃ q, registerAll (mk 5 1000 false ⟨4096, 0⟩) [(1, 0), (2, 9), (1, 9)] = Except.ok q
      ∧ (undo q).1 = [Event.undo 1, Event.teardown 1, Event.undo 2, Event.teardown 2]
      ∧ (undo q).2 = none
      ∧ (undo q).1 ≠ (actionsOf [((1 : Ptr), (0 : Ptr)), (2, 9), (1, 9)]).reverse.flatMap
          (fun a => [Event.undo a, Event.teardown a]) := by
  refine ⟨_, rfl, ?_, ?_, ?_⟩ <;> decide

/-- Claim C2, as the code has it: after any run of registrations of pairwise
distinct actions a1..an on a fresh quantum, the action events of `release()` are
exactly release(a1), teardown(a1), ..., release(an), teardown(an): registration
order, each action torn down right after its own release call. -/
theorem C2_release_order_of_distinct_actions (t : Int) (p : Ptr) (f : Bool)
    (pool : Pool) (regs : List (Ptr × Ptr)) (h : ∀ r ∈ regs, r.1 ≠ NULL)
    (hn : (actionsOf regs).Nodup) :
    ∃ q, registerAll (mk t p f pool) regs = Except.ok q
      ∧ ((release q).1).filter Event.isAction = (actionsOf regs).flatMap
          (fun a => [Event.release a, Event.teardown a]) := by
  obtain ⟨q, hq, hA⟩ := registerAll_mk_actions t p f pool regs h
  refine ⟨q, hq, ?_⟩
  rw [(release_trace q (hA ▸ hn)).1, List.filter_append, filter_release_actions,
    filter_notifications, hA]
  simp

/-- Witness of C2: three distinct actions, two of them with the same interest. -/
theorem C2_release_order_of_distinct_actions_witness :
    (∀ r ∈ [((1 : Ptr), (0 : Ptr)), (2, 9), (3, 9)], r.1 ≠ NULL)
      ∧ (actionsOf [((1 : Ptr), (0 : Ptr)), (2, 9), (3, 9)]).Nodup
      ∧ ∃ q, registerAll (mk 5 1000 false ⟨4096, 0⟩) [(1, 0), (2, 9), (3, 9)] = Except.ok q
        ∧ ((release q).1).filter Event.isAction
          = [Event.release 1, Event.teardown 1, Event.release 2, Event.teardown 2,
              Event.release 3, Event.teardown 3] :=
  ⟨by decide, by decide,
    C2_release_order_of_distinct_actions 5 1000 false ⟨4096, 0⟩
      [(1, 0), (2, 9), (3, 9)] (by decide) (by decide)⟩

/-- Counterexample to C2 as stated, with duplicates allowed: action 1 is
registered twice, around action 2.  `release()` releases and destroys 1 and then
2, and its third visit is of the destroyed action 1: the action events are four,
not the six of the claim, and the method does not return. -/
theorem C2_repeated_action_stops_release :
    ∃ q, registerAll (mk 5 1000 false ⟨4096, 0⟩) [(1, 0), (2, 9), (1, 9)] = Except.ok q
      ∧ ((release q).1).filter Event.isAction
          = [Event.release 1, Event.teardown 1, Event.release 2, Event.teardown 2]
      ∧ (release q).2 = none
      ∧ ((release q).1).filter Event.isAction
          ≠ (actionsOf [((1 : Ptr), (0 : Ptr)), (2, 9), (1, 9)]).flatMap
            (fun a => [Event.release a, Event.teardown a]) := by
  refine ⟨_, rfl, ?_, ?_, ?_⟩ <;> decide

/-- The trace of `undo()` is the trace of its walk, whether or not the walk
keeps defined behaviour. -/
theorem undo_trace_walk (q : State) :
    (undo q).1 = (for_each q.m_undoActions.reverse (visit Event.undo)
      { trace := [], destroyed := [], defined := true }).trace := by
  unfold undo
  dsimp only
  split <;> rfl

/-- Claim C4: after any run of registrations on a fresh quantum, the trace of
`undo()` holds no notifyQuantumRelease event. -/
theorem C4_undo_never_notifies (t : Int) (p : Ptr) (f : Bool) (pool : Pool)
    (regs : List (Ptr × Ptr)) (h : ∀ r ∈ regs, r.1 ≠ NULL) :
    ∃ q, registerAll (mk t p f pool) regs = Except.ok q
      ∧ ∀ i, Event.notifyQuantumRelease i ∉ (undo q).1 := by
  obtain ⟨q, hq, _⟩ := registerAll_actions regs (mk t p f pool) h
  refine ⟨q, hq, ?_⟩
  intro i hi
  rw [undo_trace_walk] at hi
  rcases walk_events Event.undo _ _ _ hi with h1 | ⟨a, h1 | h1⟩
  · simp at h1
  · cases h1
  · cases h1

/-- Witness of C4: interest 9 registered twice and interest 8 once. -/
theorem C4_undo_never_notifies_witness :
    (∀ r ∈ [((1 : Ptr), (9 : Ptr)), (2, 9), (3, 8)], r.1 ≠ NULL)
      ∧ ∃ q, registerAll (mk 5 1000 false ⟨4096, 0⟩) [(1, 9), (2, 9), (3, 8)] = Except.ok q
        ∧ ∀ i, Event.notifyQuantumRelease i ∉ (undo q).1 :=
  ⟨by decide,
    C4_undo_never_notifies 5 1000 false ⟨4096, 0⟩ [(1, 9), (2, 9), (3, 8)] (by decide)⟩

/-- The duplicate scan finds an interest exactly when it is among the stored
interests, in every state of the quantum. -/
theorem isDup_iff_stored (q : State) (slots : List Ptr) (i : Ptr)
    (hq : q.m_interests = some slots) :
    isDup slots q.m_numInterests i = true ↔ i ∈ storedInterests q := by
  unfold isDup storedInterests
  rw [hq, List.any_eq_true, List.mem_map]
  constructor
  · rintro ⟨k, hk, he⟩
    exact ⟨k, hk, by simpa using he⟩
  · rintro ⟨k, hk, he⟩
    exact ⟨k, hk, by simpa using he⟩

/-- Claim C7: for every quantum state and every non-null action a,
registerUndoAction(a, interest) appends a unconditionally: the action list
afterwards is the previous list followed by a, one longer even when a is already
in it; whereas an interest that is already stored is not stored a second time:
the stored interests and their count stay as they were. -/
theorem C7_action_appended_interest_deduplicated (q : State) (a i : Ptr)
    (ha : a ≠ NULL) :
    ∃ q1, registerUndoAction q a i = Except.ok q1
      ∧ q1.m_undoActions = q.m_undoActions ++ [a]
      ∧ q1.m_undoActions.length = q.m_undoActions.length + 1
      ∧ (i ∈ storedInterests q → i ≠ NULL →
          storedInterests q1 = storedInterests q
            ∧ q1.m_numInterests = q.m_numInterests) := by
  obtain ⟨q1, h1, h2⟩ := register_actions q a i ha
  refine ⟨q1, h1, h2, by simp [h2], ?_⟩
  intro hmem hi
  cases hq : q.m_interests with
  | none => simp [storedInterests, hq] at hmem
  | some slots =>
    have hdup := (isDup_iff_stored q slots i hq).mpr hmem
    have h3 : registerUndoAction q a i
        = Except.ok { q with m_undoActions := q.m_undoActions ++ [a] } := by
      unfold registerUndoAction
      rw [if_neg ha, if_neg hi]
      simp only [hq, hdup, if_true]
    rw [h3] at h1
    cases h1
    exact ⟨rfl, rfl⟩

/-- Witness of C7: action 1 and interest 9, both registered before, are
registered a second time. -/
theorem C7_action_appended_interest_deduplicated_witness :
    (1 : Ptr) ≠ NULL ∧ (9 : Ptr) ∈ storedInterests registeredOnce ∧ (9 : Ptr) ≠ NULL
      ∧ ∃ q1, registerUndoAction registeredOnce 1 9 = Except.ok q1
        ∧ q1.m_undoActions = [1, 1]
        ∧ storedInterests q1 = [9]
        ∧ q1.m_numInterests = 1 :=
  ⟨by decide, by decide, by decide,
    (C7_action_appended_interest_deduplicated registeredOnce 1 9 (by decide)).imp
      (fun _ h => ⟨h.1, h.2.1, (h.2.2.2 (by decide) (by decide)).1,
        (h.2.2.2 (by decide) (by decide)).2⟩)⟩

/-- Claim C8: registerUndoAction fails with a fatal contract violation exactly
when the action argument is null, for every quantum state and every interest
argument; the quantum at the abort is the quantum as it was before the call, so
neither the action list nor the interest set is changed; with a non-null action
the call does not fail. -/
theorem C8_null_action_is_fatal (q : State) (a i : Ptr) :
    (registerUndoAction q a i = Except.error q ↔ a = NULL)
      ∧ ((∃ q1, registerUndoAction q a i = Except.ok q1) ↔ a ≠ NULL) := by
  by_cases ha : a = NULL
  · have h1 : registerUndoAction q a i = Except.error q := by
      unfold registerUndoAction
      rw [if_pos ha]
    refine ⟨⟨fun _ => ha, fun _ => h1⟩, ⟨?_, fun h => absurd ha h⟩⟩
    rintro ⟨q1, hq1⟩
    rw [h1] at hq1
    cases hq1
  · obtain ⟨q1, hq1, _⟩ := register_actions q a i ha
    refine ⟨⟨?_, fun h => absurd h ha⟩, ⟨fun _ => ha, fun _ => ⟨q1, hq1⟩⟩⟩
    intro h
    rw [hq1] at h
    cases h

/-- The outcome of a call on a quantum object whose lifetime has ended. -/
theorem perform_ended (o : Object) (c : Call) (he : o.ended = true) :
    perform o c = (Outcome.undefined [], o) := by
  unfold perform
  rw [if_pos he]

/-- The outcome of a finalize method is never an abort. -/
theorem ofFinalize_not_aborted (r : List Event × Option Ptr) :
    (Outcome.ofFinalize r).isAborted = false := by
  unfold Outcome.ofFinalize
  cases r.2 <;> rfl

/-- Claim C9, as the code has it: the quantum has no check that rejects a call
made after a finalize.  `undo()` and `release()` end the lifetime of the object
with `delete this`, and any call made on the object afterwards, `undo()`,
`release()` or registerUndoAction, has no defined behaviour, rather than being
stopped as a contract violation; the only call that the quantum stops is a
registerUndoAction with a null action on a live quantum. -/
theorem C9_call_after_finalize_is_undefined (o : Object) (c : Call) :
    (perform (perform o Call.undo).2 c).1 = Outcome.undefined []
      ∧ (perform (perform o Call.release).2 c).1 = Outcome.undefined []
      ∧ ((perform o c).1.isAborted = true
          ↔ o.ended = false ∧ ∃ i, c = Call.registerUndoAction NULL i) := by
  have hu : (perform o Call.undo).2.ended = true := by
    unfold perform
    by_cases he : o.ended = true
    · rw [if_pos he]
      exact he
    · rw [if_neg he]
  have hr : (perform o Call.release).2.ended = true := by
    unfold perform
    by_cases he : o.ended = true
    · rw [if_pos he]
      exact he
    · rw [if_neg he]
  refine ⟨by rw [perform_ended _ c hu], by rw [perform_ended _ c hr], ?_⟩
  by_cases he : o.ended = true
  · rw [perform_ended o c he]
    simp [Outcome.isAborted, he]
  · have hf : o.ended = false := by simpa using he
    unfold perform
    rw [if_neg he]
    cases c with
    | undo => simp [ofFinalize_not_aborted]
    | release => simp [ofFinalize_not_aborted]
    | registerUndoAction a i =>
      by_cases ha : a = NULL
      · subst ha
        have h1 : registerUndoAction o.members NULL i = Except.error o.members := by
          unfold registerUndoAction
          rw [if_pos rfl]
        simp [h1, Outcome.isAborted, hf]
      · obtain ⟨q1, hq1, _⟩ := register_actions o.members a i ha
        simp [hq1, Outcome.isAborted, ha]

/-- Counterexample to C9 as stated: `release()` is called on the quantum holding
action 1 and interest 9, and then `undo()`, `release()` and
registerUndoAction(2, 9) are called on the same object.  The first call returns;
none of the three further calls is stopped as a contract violation: each is a
call on a destroyed object, without defined behaviour. -/
theorem C9_further_calls_are_not_rejected :
    performAll { members := registeredOnce, ended := false }
        [Call.release, Call.undo, Call.release, Call.registerUndoAction 2 9]
      = [Outcome.returned
            [Event.release 1, Event.teardown 1, Event.notifyQuantumRelease 9],
          Outcome.undefined [], Outcome.undefined [], Outcome.undefined []] := by
  decide

/-- Claim C10: allocatePooledCopy(x, n) returns the address handed out by the
arena, the n bytes at that address equal the first n bytes of x, and the n bytes
of x are unchanged.  The source buffer is live memory: it does not overlap the
bytes the arena hands out, as `memcpy` requires. -/
theorem C10_pooled_copy_equals_source (q : State) (mem : Memory) (x n : Nat)
    (hx : x + n ≤ (q.pool.allocate n).1 ∨ (q.pool.allocate n).1 + n ≤ x) :
    (allocatePooledCopy q mem x n).1 = (q.pool.allocate n).1
      ∧ (∀ k, k < n →
          (allocatePooledCopy q mem x n).2.2 ((allocatePooledCopy q mem x n).1 + k)
            = mem (x + k))
      ∧ (∀ k, k < n → (allocatePooledCopy q mem x n).2.2 (x + k) = mem (x + k)) := by
  refine ⟨rfl, ?_, ?_⟩
  · intro k hk
    simp only [allocatePooledCopy, memcpy]
    rw [if_pos ⟨by omega, by omega⟩]
    congr 1
    omega
  · intro k hk
    simp only [allocatePooledCopy, memcpy]
    rw [if_neg]
    intro h
    omega

/-- Witness of C10: four bytes at address 100 are copied into an arena at 4096. -/
theorem C10_pooled_copy_equals_source_witness :
    (100 + 4 ≤ (registeredOnce.pool.allocate 4).1
        ∨ (registeredOnce.pool.allocate 4).1 + 4 ≤ 100)
      ∧ (allocatePooledCopy registeredOnce (fun a => a % 251) 100 4).1
          = (registeredOnce.pool.allocate 4).1
      ∧ (∀ k, k < 4 →
          (allocatePooledCopy registeredOnce (fun a => a % 251) 100 4).2.2
              ((allocatePooledCopy registeredOnce (fun a => a % 251) 100 4).1 + k)
            = (fun a => a % 251) (100 + k))
      ∧ (∀ k, k < 4 →
          (allocatePooledCopy registeredOnce (fun a => a % 251) 100 4).2.2 (100 + k)
            = (fun a => a % 251) (100 + k)) :=
  ⟨by decide,
    C10_pooled_copy_equals_source registeredOnce (fun a => a % 251) 100 4 (by decide)⟩

/-- An allocation does not lower the running total of the arena. -/
theorem pool_allocate_mono (p : Pool) (sz : Nat) :
    p.getAllocatedMemory ≤ (p.allocate sz).2.getAllocatedMemory := by
  simp [Pool.getAllocatedMemory, Pool.allocate]

/-- A registration, whether it returns or aborts, does not lower the running
total of the arena. -/
theorem register_allocated_mono (q : State) (a i : Ptr) :
    ∃ q1, (registerUndoAction q a i = Except.ok q1
        ∨ registerUndoAction q a i = Except.error q1)
      ∧ getAllocatedMemory q ≤ getAllocatedMemory q1 := by
  unfold registerUndoAction
  by_cases ha : a = NULL
  · rw [if_pos ha]
    exact ⟨q, Or.inr rfl, le_refl _⟩
  rw [if_neg ha]
  by_cases hi : i = NULL
  · rw [if_pos hi]
    exact ⟨_, Or.inl rfl, le_refl _⟩
  simp only [if_neg hi]
  have h16 := pool_allocate_mono q.pool (sizeofPtr * 16)
  split
  · refine ⟨_, Or.inl rfl, ?_⟩
    cases q.m_interests
    · exact h16
    · exact le_refl _
  · refine ⟨_, Or.inl rfl, ?_⟩
    cases q.m_interests
    · dsimp only
      split
      · exact le_trans h16 (pool_allocate_mono _ _)
      · exact h16
    · dsimp only
      split
      · exact pool_allocate_mono _ _
      · exact le_refl _

/-- Claim C12: `getAllocatedMemory()` does not decrease under any public
operation, in every state of the quantum: registerUndoAction (returning or
aborting), allocateAction and allocatePooledCopy each leave it greater than or
equal to its value before. -/
theorem C12_allocated_memory_monotone (q : State) (a i : Ptr) (sz : Nat)
    (mem : Memory) (x : Nat) :
    (∃ q1, (registerUndoAction q a i = Except.ok q1
          ∨ registerUndoAction q a i = Except.error q1)
        ∧ getAllocatedMemory q ≤ getAllocatedMemory q1)
      ∧ getAllocatedMemory q ≤ getAllocatedMemory (allocateAction q sz).2
      ∧ getAllocatedMemory q ≤ getAllocatedMemory (allocatePooledCopy q mem x sz).2.1 :=
  ⟨register_allocated_mono q a i, pool_allocate_mono q.pool sz,
    pool_allocate_mono q.pool sz⟩

/-- Claim C14: registerUndoAction(a) without interest changes only the action
list: in every state of the quantum the result is the same quantum with a
appended to its actions, so the token, the site flag, the stored interests,
their count and capacity and the arena are as before and no allocation is made;
and after any run of registrations on a fresh quantum `getUndoToken()` returns
the token given at construction. -/
theorem C14_register_without_interest_frame (q : State) (a : Ptr) (t : Int)
    (p : Ptr) (f : Bool) (pool : Pool) (regs : List (Ptr × Ptr))
    (ha : a ≠ NULL) (h : ∀ r ∈ regs, r.1 ≠ NULL) :
    registerUndoAction q a NULL
        = Except.ok { q with m_undoActions := q.m_undoActions ++ [a] }
      ∧ ∃ q1, registerAll (mk t p f pool) regs = Except.ok q1
          ∧ getUndoToken q1 = t := by
  constructor
  · unfold registerUndoAction
    rw [if_neg ha, if_pos rfl]
  · obtain ⟨q1, hq1, ht, _, _⟩ := registerAll_frame regs (mk t p f pool) h
    exact ⟨q1, hq1, ht⟩

/-- Witness of C14: action 2 registered without interest on a quantum that holds
an action and an interest, and a run of three registrations on a fresh quantum. -/
theorem C14_register_without_interest_frame_witness :
    (2 : Ptr) ≠ NULL
      ∧ (∀ r ∈ [((1 : Ptr), (9 : Ptr)), (2, 0), (3, 8)], r.1 ≠ NULL)
      ∧ registerUndoAction registeredOnce 2 NULL
        = Except.ok { registeredOnce with m_undoActions := [1, 2] }
      ∧ ∃ q1, registerAll (mk 5 1000 false ⟨4096, 0⟩) [(1, 9), (2, 0), (3, 8)]
            = Except.ok q1
          ∧ getUndoToken q1 = 5 :=
  ⟨by decide, by decide,
    C14_register_without_interest_frame registeredOnce 2 5 1000 false ⟨4096, 0⟩
      [(1, 9), (2, 0), (3, 8)] (by decide) (by decide)⟩

/-- A registration without interest leaves the capacity as it is. -/
theorem register_null_capacity (q : State) (k : Nat) (a : Ptr)
    (hC : CapacityFits q k) (ha : a ≠ NULL) :
    ∃ q1, registerUndoAction q a NULL = Except.ok q1 ∧ CapacityFits q1 k := by
  unfold registerUndoAction
  rw [if_neg ha, if_pos rfl]
  exact ⟨_, rfl, hC⟩

/-- A registration with an interest that is already stored leaves the capacity
as it is. -/
theorem register_dup_capacity (q : State) (S : List Ptr) (a i : Ptr)
    (hS : Stores q S) (hC : CapacityFits q S.length) (ha : a ≠ NULL) (hi : i ≠ NULL)
    (hmem : i ∈ S) :
    ∃ q1, registerUndoAction q a i = Except.ok q1 ∧ CapacityFits q1 S.length := by
  have hst := storedInterests_of_stores q S hS
  cases hq : q.m_interests with
  | none =>
    have hnil : S = [] := by
      rw [← hst]
      simp [storedInterests, hq]
    rw [hnil] at hmem
    simp at hmem
  | some slots =>
    have hdup := (isDup_iff_stored q slots i hq).mpr (hst ▸ hmem)
    refine ⟨{ q with m_undoActions := q.m_undoActions ++ [a] }, ?_, hC⟩
    unfold registerUndoAction
    rw [if_neg ha, if_neg hi]
    simp only [hq, hdup, if_true]

/-- A registration with an interest that is not stored yet allocates sixteen
slots, or doubles a full array, or leaves the capacity as it is, so that the
capacity fits one more interest. -/
theorem register_new_capacity (q : State) (S : List Ptr) (a i : Ptr)
    (hS : Stores q S) (hC : CapacityFits q S.length) (ha : a ≠ NULL) (hi : i ≠ NULL)
    (hmem : i ∉ S) (hb : S.length < INT_MAX) :
    ∃ q1, registerUndoAction q a i = Except.ok q1
      ∧ CapacityFits q1 (S.length + 1) := by
  have hb31 : S.length < 2 ^ 31 - 1 := hb
  have h32 : UINT32 = 2 ^ 32 := rfl
  unfold Stores at hS
  unfold CapacityFits at hC
  cases hq : q.m_interests with
  | none =>
    rw [hq] at hS
    obtain ⟨hn, hnil⟩ := hS
    subst hnil
    have hn0 : q.m_numInterests = 0 := by simpa using hn
    refine ⟨_, register_alloc q a i ha hi hq hn0, ?_⟩
    unfold CapacityFits
    exact ⟨0, rfl, Or.inl rfl⟩
  | some slots =>
    rw [hq] at hS hC
    obtain ⟨hn, hlen, hle, hpos, htake⟩ := hS
    obtain ⟨j, hj, hhalf⟩ := hC
    have hdup : isDup slots q.m_numInterests i = false := by
      rw [Bool.eq_false_iff, Ne, isDup_iff slots _ i (by omega), hn, htake]
      exact hmem
    by_cases hfull : q.m_numInterests = q.m_interestsCapacity
    · refine ⟨_, register_grow q slots a i ha hi hq hdup hfull, ?_⟩
      unfold CapacityFits
      have h2 : q.m_interestsCapacity * 2 % UINT32 = q.m_interestsCapacity * 2 := by
        apply Nat.mod_eq_of_lt; omega
      refine ⟨j + 1, ?_, Or.inr ?_⟩
      · show q.m_interestsCapacity * 2 % UINT32 = 16 * 2 ^ (j + 1)
        rw [h2, hj, pow_succ]
        ring
      · rw [pow_succ]
        omega
    · refine ⟨_, register_put q slots a i ha hi hq hdup hfull, ?_⟩
      unfold CapacityFits
      refine ⟨j, hj, ?_⟩
      rcases hhalf with h0 | hlt
      · exact Or.inl h0
      · exact Or.inr (by omega)

/-- A run of registrations keeps the stored interests and the capacity in step. -/
theorem registerAll_capacity (regs : List (Ptr × Ptr)) (q : State) (S : List Ptr)
    (hS : Stores q S) (hC : CapacityFits q S.length) (h : ∀ r ∈ regs, r.1 ≠ NULL)
    (hb : (storeAll S (interestsOf regs)).length ≤ INT_MAX) :
    ∃ q1, registerAll q regs = Except.ok q1
      ∧ Stores q1 (storeAll S (interestsOf regs))
      ∧ CapacityFits q1 (storeAll S (interestsOf regs)).length := by
  induction regs generalizing q S with
  | nil => exact ⟨q, rfl, by simpa [interestsOf, storeAll] using hS,
      by simpa [interestsOf, storeAll] using hC⟩
  | cons r rest ih =>
    have ha : r.1 ≠ NULL := h r (List.mem_cons_self _ _)
    have hrest : ∀ x ∈ rest, x.1 ≠ NULL := fun x hx => h x (List.mem_cons_of_mem _ hx)
    by_cases hi : r.2 = NULL
    · have hint : interestsOf (r :: rest) = interestsOf rest := by
        simp [interestsOf, hi]
      rw [hint] at hb ⊢
      obtain ⟨q1, h1, hS1⟩ := register_null_stores q S r.1 hS ha
      obtain ⟨q1c, h1c, hC1⟩ := register_null_capacity q S.length r.1 hC ha
      rw [h1] at h1c
      cases h1c
      rw [← hi] at h1
      obtain ⟨q2, h2, hS2, hC2⟩ := ih q1 S hS1 hC1 hrest hb
      exact ⟨q2, by simp [registerAll, h1, h2], hS2, hC2⟩
    · have hint : interestsOf (r :: rest) = r.2 :: interestsOf rest := by
        simp [interestsOf, hi]
      rw [hint] at hb ⊢
      by_cases hmem : r.2 ∈ S
      · have hst : storeAll S (r.2 :: interestsOf rest) = storeAll S (interestsOf rest) := by
          simp [storeAll, hmem]
        rw [hst] at hb ⊢
        obtain ⟨q1, h1, hS1⟩ := register_dup_stores q S r.1 r.2 hS ha hi hmem
        obtain ⟨q1c, h1c, hC1⟩ := register_dup_capacity q S r.1 r.2 hS hC ha hi hmem
        rw [h1] at h1c
        cases h1c
        obtain ⟨q2, h2, hS2, hC2⟩ := ih q1 S hS1 hC1 hrest hb
        exact ⟨q2, by simp [registerAll, h1, h2], hS2, hC2⟩
      · have hst : storeAll S (r.2 :: interestsOf rest)
            = storeAll (S ++ [r.2]) (interestsOf rest) := by
          simp [storeAll, hmem]
        rw [hst] at hb ⊢
        have hlen := storeAll_length (interestsOf rest) (S ++ [r.2])
        have hlt : S.length < INT_MAX := by
          simp at hlen
          omega
        obtain ⟨q1, h1, hS1⟩ := register_new_stores q S r.1 r.2 hS ha hi hmem hlt
        obtain ⟨q1c, h1c, hC1⟩ := register_new_capacity q S r.1 r.2 hS hC ha hi hmem hlt
        rw [h1] at h1c
        cases h1c
        have hC1a : CapacityFits q1 (S ++ [r.2]).length := by simpa using hC1
        obtain ⟨q2, h2, hS2, hC2⟩ := ih q1 (S ++ [r.2]) hS1 hC1a hrest hb
        exact ⟨q2, by simp [registerAll, h1, h2], hS2, hC2⟩

/-- A run of registrations on a fresh quantum, within the range of the scan
counter: the quantum stores the first occurrences of the interests and its
capacity fits their number. -/
theorem registerAll_mk_capacity (t : Int) (p : Ptr) (f : Bool) (pool : Pool)
    (regs : List (Ptr × Ptr)) (h : ∀ r ∈ regs, r.1 ≠ NULL)
    (hb : (firstOccurrences (interestsOf regs)).length ≤ INT_MAX) :
    ∃ q, registerAll (mk t p f pool) regs = Except.ok q
      ∧ Stores q (firstOccurrences (interestsOf regs))
      ∧ CapacityFits q (firstOccurrences (interestsOf regs)).length := by
  rw [← storeAll_nil] at hb ⊢
  exact registerAll_capacity regs (mk t p f pool) [] (stores_mk t p f pool)
    (by simp [CapacityFits, mk]) h hb

/-- A capacity of 16 doubled `j` times whose last doubling was needed for `k`
interests is the least such capacity that holds `k` interests. -/
theorem capacity_least (j k : Nat) (hhalf : j = 0 ∨ 16 * 2 ^ j < 2 * k) (j1 : Nat)
    (hk : k ≤ 16 * 2 ^ j1) : 16 * 2 ^ j ≤ 16 * 2 ^ j1 := by
  by_cases hle : j ≤ j1
  · exact Nat.mul_le_mul_left 16 (Nat.pow_le_pow_right (by decide) hle)
  · rcases hhalf with h0 | hlt
    · omega
    · have hj : j1 + 1 ≤ j := by omega
      have hp : 2 ^ (j1 + 1) ≤ 2 ^ j := Nat.pow_le_pow_right (by decide) hj
      rw [pow_succ] at hp
      omega

/-- Claim C13: after any run of registrations on a fresh quantum with k distinct
non-null interests, the interest array is unallocated with capacity 0 when
k = 0, and otherwise it is allocated and its capacity is the least number of the
form 16 * 2^j that is at least k.  The number of distinct interests is taken
within the range of the scan counter `int ii`. -/
theorem C13_capacity_least_power (t : Int) (p : Ptr) (f : Bool) (pool : Pool)
    (regs : List (Ptr × Ptr)) (h : ∀ r ∈ regs, r.1 ≠ NULL)
    (hb : (firstOccurrences (interestsOf regs)).length ≤ INT_MAX) :
    ∃ q, registerAll (mk t p f pool) regs = Except.ok q
      ∧ ((firstOccurrences (interestsOf regs)).length = 0 →
          q.m_interests = none ∧ q.m_interestsCapacity = 0)
      ∧ (0 < (firstOccurrences (interestsOf regs)).length →
          q.m_interests ≠ none
            ∧ ∃ j, q.m_interestsCapacity = 16 * 2 ^ j
              ∧ (firstOccurrences (interestsOf regs)).length ≤ q.m_interestsCapacity
              ∧ ∀ j1, (firstOccurrences (interestsOf regs)).length ≤ 16 * 2 ^ j1 →
                  q.m_interestsCapacity ≤ 16 * 2 ^ j1) := by
  obtain ⟨q, hq, hS, hC⟩ := registerAll_mk_capacity t p f pool regs h hb
  refine ⟨q, hq, ?_, ?_⟩
  · intro hk
    unfold Stores at hS
    unfold CapacityFits at hC
    cases hm : q.m_interests with
    | none =>
      rw [hm] at hC
      exact ⟨rfl, hC⟩
    | some slots =>
      rw [hm] at hS
      omega
  · intro hk
    unfold Stores at hS
    unfold CapacityFits at hC
    cases hm : q.m_interests with
    | none =>
      rw [hm] at hS
      rw [hS.2] at hk
      simp at hk
    | some slots =>
      rw [hm] at hS hC
      obtain ⟨j, hj, hhalf⟩ := hC
      refine ⟨by simp, j, hj, hS.2.2.1, ?_⟩
      intro j1 hj1
      rw [hj]
      exact capacity_least j _ hhalf j1 hj1

/-- Witness of C13: seventeen distinct interests make the capacity 32. -/
theorem C13_capacity_least_power_witness :
    (∀ r ∈ (List.range 17).map (fun k => ((k + 1 : Ptr), (k + 101 : Ptr))), r.1 ≠ NULL)
      ∧ (firstOccurrences (interestsOf
          ((List.range 17).map (fun k => ((k + 1 : Ptr), (k + 101 : Ptr)))))).length ≤ INT_MAX
      ∧ (firstOccurrences (interestsOf
          ((List.range 17).map (fun k => ((k + 1 : Ptr), (k + 101 : Ptr)))))).length = 17
      ∧ ∃ q, registerAll (mk 5 1000 false ⟨4096, 0⟩)
            ((List.range 17).map (fun k => ((k + 1 : Ptr), (k + 101 : Ptr)))) = Except.ok q
        ∧ q.m_interests ≠ none
        ∧ q.m_interestsCapacity = 32 :=
  ⟨by decide, by decide, by decide,
    (C13_capacity_least_power 5 1000 false ⟨4096, 0⟩
      ((List.range 17).map (fun k => ((k + 1 : Ptr), (k + 101 : Ptr))))
      (by decide) (by decide)).imp (fun q hq => by
        obtain ⟨h1, _, h3⟩ := hq
        obtain ⟨hne, j, hj, hle, hleast⟩ := h3 (by decide)
        refine ⟨h1, hne, ?_⟩
        have h17 : (firstOccurrences (interestsOf
            ((List.range 17).map (fun k => ((k + 1 : Ptr), (k + 101 : Ptr)))))).length
              = 17 := by decide
        rw [h17] at hle hleast
        have h32 := hleast 1 (by decide)
        cases j with
        | zero => omega
        | succ m =>
          have hp : 1 ≤ 2 ^ m := Nat.one_le_two_pow
          rw [pow_succ] at hj
          omega)⟩

/-- Claim C15: registering an interest that is already stored is a no-op on the
interest set.  In every state of the quantum in which interest i is stored, and
for every non-null action a, registerUndoAction(a, i) returns the same quantum
with a appended to its actions: the stored interests, their count, the capacity
and the arena are as before, also when the count equals the capacity; and any
number of such registrations in a row changes the actions only. -/
theorem C15_stored_interest_no_op (q : State) (a i : Ptr) (ha : a ≠ NULL)
    (hi : i ≠ NULL) (hmem : i ∈ storedInterests q) :
    registerUndoAction q a i
        = Except.ok { q with m_undoActions := q.m_undoActions ++ [a] }
      ∧ ∀ n, registerAll q (List.replicate n (a, i))
          = Except.ok { q with m_undoActions := q.m_undoActions ++ List.replicate n a } := by
  have hone : ∀ q0 : State, i ∈ storedInterests q0 →
      registerUndoAction q0 a i
        = Except.ok { q0 with m_undoActions := q0.m_undoActions ++ [a] } := by
    intro q0 hm
    cases hq : q0.m_interests with
    | none => simp [storedInterests, hq] at hm
    | some slots =>
      have hdup := (isDup_iff_stored q0 slots i hq).mpr hm
      unfold registerUndoAction
      rw [if_neg ha, if_neg hi]
      simp only [hq, hdup, if_true]
  refine ⟨hone q hmem, ?_⟩
  intro n
  induction n generalizing q with
  | zero => simp [registerAll]
  | succ m ih =>
    rw [List.replicate_succ, registerAll, hone q hmem]
    dsimp only
    have hnext := ih { q with m_undoActions := q.m_undoActions ++ [a] } hmem
    rw [hnext]
    simp [List.replicate_succ]

/-- Witness of C15: interest 105 is registered again on a quantum whose sixteen
slots are all taken. -/
theorem C15_stored_interest_no_op_witness :
    (1 : Ptr) ≠ NULL ∧ (105 : Ptr) ≠ NULL ∧ (105 : Ptr) ∈ storedInterests fullQuantum
      ∧ fullQuantum.m_numInterests = fullQuantum.m_interestsCapacity
      ∧ registerUndoAction fullQuantum 1 105
        = Except.ok { fullQuantum with m_undoActions := fullQuantum.m_undoActions ++ [1] }
      ∧ ∀ n, registerAll fullQuantum (List.replicate n (1, 105))
          = Except.ok { fullQuantum with
              m_undoActions := fullQuantum.m_undoActions ++ List.replicate n 1 } :=
  ⟨by decide, by decide, by decide, rfl,
    C15_stored_interest_no_op fullQuantum 1 105 (by decide) (by decide) (by decide)⟩

/-- Claim C16: every state reached from a fresh quantum by registrations has its
interest count at most the capacity, its stored interests pairwise distinct, and
its array unallocated exactly when the count is 0; the array has as many slots
as the capacity says, so every index below the count, which is where the scan
and `release()` read and where the last new interest was written, is inside the
array.  The number of distinct interests is taken within the range of the scan
counter `int ii`. -/
theorem C16_interest_array_invariant (t : Int) (p : Ptr) (f : Bool) (pool : Pool)
    (regs : List (Ptr × Ptr)) (h : ∀ r ∈ regs, r.1 ≠ NULL)
    (hb : (firstOccurrences (interestsOf regs)).length ≤ INT_MAX) :
    ∃ q, registerAll (mk t p f pool) regs = Except.ok q
      ∧ q.m_numInterests ≤ q.m_interestsCapacity
      ∧ (storedInterests q).Nodup
      ∧ (q.m_interests = none ↔ q.m_numInterests = 0)
      ∧ ∀ slots, q.m_interests = some slots →
          slots.length = q.m_interestsCapacity
            ∧ (∀ ii, ii < q.m_numInterests → ii < slots.length)
            ∧ storedInterests q = slots.take q.m_numInterests := by
  obtain ⟨q, hq, hS, _⟩ := registerAll_mk_capacity t p f pool regs h hb
  have hst := storedInterests_of_stores q _ hS
  refine ⟨q, hq, ?_, ?_, ?_, ?_⟩
  · unfold Stores at hS
    cases hm : q.m_interests with
    | none =>
      rw [hm] at hS
      rw [hS.1, hS.2]
      simp
    | some slots =>
      rw [hm] at hS
      omega
  · rw [hst]
    exact nodup_firstOccurrences _
  · unfold Stores at hS
    cases hm : q.m_interests with
    | none =>
      rw [hm] at hS
      rw [hS.1, hS.2]
      simp
    | some slots =>
      rw [hm] at hS
      simp
      omega
  · intro slots hm
    unfold Stores at hS
    rw [hm] at hS
    obtain ⟨hn, hlen, hle, _, htake⟩ := hS
    refine ⟨hlen, fun ii hii => by omega, ?_⟩
    rw [hst, hn, htake]

/-- Witness of C16: forty registrations over thirty-three distinct interests. -/
theorem C16_interest_array_invariant_witness :
    (∀ r ∈ (List.range 40).map (fun k => ((k + 1 : Ptr), (k % 33 + 101 : Ptr))), r.1 ≠ NULL)
      ∧ (firstOccurrences (interestsOf
          ((List.range 40).map (fun k => ((k + 1 : Ptr), (k % 33 + 101 : Ptr)))))).length
            ≤ INT_MAX
      ∧ ∃ q, registerAll (mk 5 1000 false ⟨4096, 0⟩)
            ((List.range 40).map (fun k => ((k + 1 : Ptr), (k % 33 + 101 : Ptr)))) = Except.ok q
        ∧ q.m_numInterests ≤ q.m_interestsCapacity
        ∧ (storedInterests q).Nodup
        ∧ (q.m_interests = none ↔ q.m_numInterests = 0)
        ∧ ∀ slots, q.m_interests = some slots →
            slots.length = q.m_interestsCapacity
              ∧ (∀ ii, ii < q.m_numInterests → ii < slots.length)
              ∧ storedInterests q = slots.take q.m_numInterests :=
  ⟨by decide, by decide,
    C16_interest_array_invariant 5 1000 false ⟨4096, 0⟩
      ((List.range 40).map (fun k => ((k + 1 : Ptr), (k % 33 + 101 : Ptr))))
      (by decide) (by decide)⟩

end UndoQuantum

namespace LimitExecutor

/-- An `int` value is not changed by wrap-around. -/
theorem wrapInt_of_isInt (x : Int) (h1 : -(2 ^ 31) ≤ x) (h2 : x < 2 ^ 31) :
    wrapInt x = x := by
  unfold wrapInt
  rw [Int.emod_eq_of_lt (by omega) (by omega)]
  omega

/-- Dropping from a list with a head, when at least one tuple is to be dropped. -/
theorem drop_cons_pos {Tuple : Type} (tuple : Tuple) (rest : List Tuple) (d : Int)
    (hd : 0 < d) :
    (tuple :: rest).drop d.toNat = rest.drop (d - 1).toNat := by
  have h : d.toNat = (d - 1).toNat + 1 := by omega
  rw [h, List.drop_succ_cons]

/-- The loop without limit: the tuples left are inserted once the offset is used up. -/
theorem loop_unlimited {Tuple : Type} (offset : Int) (ho : offset < 2 ^ 31)
    (rest : List Tuple) (s : LoopState Tuple) (hs : -(2 ^ 31) ≤ s.tuples_skipped) :
    (loop (-1) offset rest s).output
      = s.output ++ rest.drop (offset - s.tuples_skipped).toNat := by
  induction rest generalizing s with
  | nil => simp [loop]
  | cons tuple rest ih =>
    unfold loop
    rw [if_pos (Or.inl rfl)]
    by_cases hsk : s.tuples_skipped < offset
    · have hw : wrapInt (s.tuples_skipped + 1) = s.tuples_skipped + 1 :=
        wrapInt_of_isInt _ (by omega) (by omega)
      have key := ih
        { s with tuples_skipped := wrapInt (s.tuples_skipped + 1), reads := s.reads + 1 }
        (by show -(2 ^ 31) ≤ wrapInt (s.tuples_skipped + 1); rw [hw]; omega)
      rw [if_pos hsk, key]
      dsimp only
      rw [hw, drop_cons_pos tuple rest (offset - s.tuples_skipped) (by omega)]
      congr 3
      omega
    · have key := ih
        { s with
          tuple_ctr := wrapInt (s.tuple_ctr + 1)
          output := s.output ++ [tuple]
          reads := s.reads + 1 } hs
      have h0 : (offset - s.tuples_skipped).toNat = 0 := by omega
      rw [if_neg hsk, key]
      dsimp only
      rw [h0]
      simp

/-- The loop with a limit: the tuples left are inserted once the offset is used
up, until the limit is reached. -/
theorem loop_limited {Tuple : Type} (limit offset : Int) (hl1 : limit ≠ -1)
    (hl : limit < 2 ^ 31) (ho : offset < 2 ^ 31)
    (rest : List Tuple) (s : LoopState Tuple) (hs : -(2 ^ 31) ≤ s.tuples_skipped)
    (hc : -(2 ^ 31) ≤ s.tuple_ctr) :
    (loop limit offset rest s).output
      = s.output ++ (rest.drop (offset - s.tuples_skipped).toNat).take
          (limit - s.tuple_ctr).toNat := by
  induction rest generalizing s with
  | nil => simp [loop]
  | cons tuple rest ih =>
    unfold loop
    by_cases hlim : s.tuple_ctr < limit
    · rw [if_pos (Or.inr hlim)]
      by_cases hsk : s.tuples_skipped < offset
      · have hw : wrapInt (s.tuples_skipped + 1) = s.tuples_skipped + 1 :=
          wrapInt_of_isInt _ (by omega) (by omega)
        have key := ih
          { s with tuples_skipped := wrapInt (s.tuples_skipped + 1), reads := s.reads + 1 }
          (by show -(2 ^ 31) ≤ wrapInt (s.tuples_skipped + 1); rw [hw]; omega) hc
        rw [if_pos hsk, key]
        dsimp only
        rw [hw, drop_cons_pos tuple rest (offset - s.tuples_skipped) (by omega)]
        congr 4
        omega
      · have hw : wrapInt (s.tuple_ctr + 1) = s.tuple_ctr + 1 :=
          wrapInt_of_isInt _ (by omega) (by omega)
        have key := ih
          { s with
            tuple_ctr := wrapInt (s.tuple_ctr + 1)
            output := s.output ++ [tuple]
            reads := s.reads + 1 } hs
          (by show -(2 ^ 31) ≤ wrapInt (s.tuple_ctr + 1); rw [hw]; omega)
        have h0 : (offset - s.tuples_skipped).toNat = 0 := by omega
        have h1 : (limit - s.tuple_ctr).toNat = (limit - (s.tuple_ctr + 1)).toNat + 1 := by
          omega
        rw [if_neg hsk, key]
        dsimp only
        rw [hw, h0, h1]
        simp
    · have hno : ¬ (limit = -1 ∨ s.tuple_ctr < limit) := by
        intro h
        rcases h with h | h
        · exact hl1 h
        · exact hlim h
      rw [if_neg hno]
      have h0 : (limit - s.tuple_ctr).toNat = 0 := by omega
      rw [h0]
      simp

/-- Claim C17: `p_execute` inserts into the output table, in input order, exactly
the input tuples that remain after skipping the first max(offset, 0) tuples, cut
to the first `limit` of them when limit is not -1 and all of them when limit is
-1; with limit 0 the output is empty and no input tuple is read. -/
theorem C17_limit_offset_output {Tuple : Type} (input : List Tuple)
    (limit offset : Int) (hl : IsInt limit) (ho : IsInt offset) :
    (p_execute input limit offset).1 = true
      ∧ (p_execute input limit offset).2.1 = limited input limit offset
      ∧ (limit = -1 → (p_execute input limit offset).2.1 = input.drop offset.toNat)
      ∧ (0 ≤ limit → (p_execute input limit offset).2.1
          = (input.drop offset.toNat).take limit.toNat)
      ∧ (p_execute input 0 offset).2.1 = []
      ∧ (p_execute input 0 offset).2.2 = 0 := by
  have hmain : (p_execute input limit offset).2.1 = limited input limit offset := by
    unfold p_execute limited
    by_cases h1 : limit = -1
    · subst h1
      rw [if_pos rfl]
      dsimp only
      rw [loop_unlimited offset ho.2 input _ (by norm_num)]
      simp
    · rw [if_neg h1]
      dsimp only
      rw [loop_limited limit offset h1 hl.2 ho.2 input _ (by norm_num) (by norm_num)]
      simp
  refine ⟨rfl, hmain, ?_, ?_, ?_, ?_⟩
  · intro h1
    rw [hmain, limited, if_pos h1]
  · intro h0
    rw [hmain, limited, if_neg (by omega)]
  · cases input <;> simp [p_execute, loop]
  · cases input <;> simp [p_execute, loop]

/-- Witness of C17: five tuples, offset 1 and limit 2. -/
theorem C17_limit_offset_output_witness :
    IsInt 2 ∧ IsInt 1
      ∧ (p_execute [10, 20, 30, 40, 50] 2 1).1 = true
      ∧ (p_execute [10, 20, 30, 40, 50] 2 1).2.1 = [20, 30]
      ∧ (p_execute [10, 20, 30, 40, 50] 0 1).2.1 = []
      ∧ (p_execute [10, 20, 30, 40, 50] 0 1).2.2 = 0 :=
  ⟨by unfold IsInt; decide, by unfold IsInt; decide,
    (C17_limit_offset_output [10, 20, 30, 40, 50] 2 1
      (by unfold IsInt; decide) (by unfold IsInt; decide)).1,
    (C17_limit_offset_output [10, 20, 30, 40, 50] 2 1
      (by unfold IsInt; decide) (by unfold IsInt; decide)).2.2.2.1 (by decide),
    (C17_limit_offset_output [10, 20, 30, 40, 50] 2 1
      (by unfold IsInt; decide) (by unfold IsInt; decide)).2.2.2.2.1,
    (C17_limit_offset_output [10, 20, 30, 40, 50] 2 1
      (by unfold IsInt; decide) (by unfold IsInt; decide)).2.2.2.2.2⟩

end LimitExecutor
